import Mathlib

/-!
Verification of the Lovense pattern-file decoder (package `pattern`).

The Go source is embedded shallowly: the byte stream is a `List Char`
(each `Char` standing for one byte), the buffered reader (`bufio.Reader`)
is modelled by its observable behaviour — `ReadSlice` returns the bytes up
to and including the delimiter, an `io.EOF` marker when the stream ends
first, or a `bufio.ErrBufferFull` marker when the delimiter is not found
within the internal buffer size (which `NewReader` leaves at the caller's
choice when it is handed an existing `bufio.Reader`).  Loops are written
with an explicit fuel argument, always called with fuel larger than the
remaining stream length, so that every definition computes by `decide`.
-/

deriving instance DecidableEq for Except

namespace Lovense

/-- Convert a string literal into the byte list it denotes. -/
def toL (s : String) : List Char := s.toList

/-- Errors produced by the decoder; constructors mirror the `error` values the
Go code builds with `fmt.Errorf` (wrapping is represented by nesting). -/
inductive Err where
  | eof : Err
  | bufferFull : Err
  | cannotPeekVersion : Err → Err
  | invalidVersion : List Char → Err
  | invalidSValue : List Char → Err
  | cannotReadHeader : Err → Err
  | cannotReadAllV0 : Err → Err
  | cannotReadAllV1 : Err → Err
  | cannotReadPoint : Err → Err
  | cannotRead : Err → Err
  | parsePointV0 : List Char → Err
  | invalidPoint : List Char → Err
  | strideViolation : List Char → Nat → Err
  | unknownVersion : Int → Err
  | motorMismatch : Nat → Nat → Err
  deriving DecidableEq, Repr

/-- Header of a pattern file (Go struct `Header`).  `Version` is Go's `int`,
`Interval` is kept in milliseconds (the Go code stores
`time.Duration(d) * time.Millisecond`), and the Go field `Type` is named
`Typ` because `Type` is reserved in Lean. -/
structure Header where
  Version : Int
  Typ : List Char
  Features : List (List Char)
  Interval : Int
  MD5Sum : List Char
  deriving DecidableEq, Repr

/-- Decoded pattern file (Go struct `Pattern`, which embeds `Header`). -/
structure Pattern extends Header where
  Points : List (List Nat)
  deriving DecidableEq, Repr

/-- Go `Strength` is `uint8`; values appearing in decoded points are the
results of `strconv.ParseUint(_, 10, 8)` and hence lie in `[0, 255]`. -/
abbrev Strength := Nat

/-- Version constant `V0` (legacy format). -/
def V0 : Int := 0

/-- Version constant `V1` (standard format). -/
def V1 : Int := 1

/-- Go `clampF`: clamp a float into `[0, 1]`; `float64` is modelled by `ℚ`. -/
def clampF (f : ℚ) : ℚ :=
  if f < 0 then 0 else if f > 1 then 1 else f

/-- Go `Strength.Scale`: divide by 100 (legacy) or 20 (standard) and clamp;
any other version yields 0. -/
def Strength.Scale (s : Strength) (v : Int) : ℚ :=
  if v = V0 then clampF ((s : ℚ) / 100)
  else if v = V1 then clampF ((s : ℚ) / 20)
  else 0

/-- Byte-level whitespace recognised by `bytes.TrimSpace` on ASCII input. -/
def isSpaceB (c : Char) : Bool :=
  c = ' ' || c = '\t' || c = '\n' || c = '\x0b' || c = '\x0c' || c = '\r'

/-- Go `bytes.TrimSpace` restricted to single-byte (ASCII) whitespace. -/
def trimSpace (l : List Char) : List Char :=
  ((l.dropWhile isSpaceB).reverse.dropWhile isSpaceB).reverse

/-- Go `bytes.TrimSuffix` with a one-byte suffix: drop one trailing `c`. -/
def trimSuffix1 (l : List Char) (c : Char) : List Char :=
  if l.getLast? = some c then l.dropLast else l

/-- Decimal digit test. -/
def isDigitB (c : Char) : Bool := '0' ≤ c && c ≤ '9'

/-- Numeric value of a digit list (most significant first). -/
def digitsVal (l : List Char) : Nat :=
  l.foldl (fun a c => a * 10 + (c.toNat - 48)) 0

/-- Parse a non-empty all-digit byte list into a `Nat`; `none` otherwise. -/
def digitsNat (l : List Char) : Option Nat :=
  if !l.isEmpty && l.all isDigitB then some (digitsVal l) else none

/-- Go `strconv.ParseUint(s, 10, 8)`: digits only, value at most 255. -/
def parseUint8 (l : List Char) : Option Nat :=
  match digitsNat l with
  | some n => if n ≤ 255 then some n else none
  | none => none

/-- Go `strconv.Atoi`: optional sign, digits, 64-bit signed range check. -/
def atoi (l : List Char) : Option Int :=
  match l with
  | '+' :: ds => (digitsNat ds).bind fun n =>
      if n < 2 ^ 63 then some (Int.ofNat n) else none
  | '-' :: ds => (digitsNat ds).bind fun n =>
      if n ≤ 2 ^ 63 then some (-(n : Int)) else none
  | ds => (digitsNat ds).bind fun n =>
      if n < 2 ^ 63 then some (Int.ofNat n) else none

/-- Model of `bufio.Reader.ReadSlice(delim)` on the remaining stream `s` with
internal buffer size `bufSize`: if the first occurrence of `delim` lies
within the buffer, return the bytes up to and including it together with the
rest of the stream; if the stream ends first, return everything with an
`io.EOF` marker; otherwise the buffer fills and `bufio.ErrBufferFull` is
reported after consuming a buffer's worth of bytes. -/
def readSlice (delim : Char) (bufSize : Nat) (s : List Char) :
    List Char × List Char × Option Err :=
  match s.findIdx? (· == delim) with
  | some i =>
    if i < bufSize then (s.take (i + 1), s.drop (i + 1), none)
    else (s.take bufSize, s.drop bufSize, some .bufferFull)
  | none =>
    if s.length < bufSize then (s, [], some .eof)
    else (s.take bufSize, s.drop bufSize, some .bufferFull)

/-- Go `sepReader`: a cursor over a byte slice split at a one-byte separator.
The Go `nil` slice that signals exhaustion is modelled by `none`. -/
structure sepReader where
  b : Option (List Char)
  s : Char
  deriving DecidableEq, Repr

/-- Go `sepReader.next`: the token strictly before the next separator
(consuming it), the whole remaining slice once no separator remains, and
`none` on every call after that. -/
def sepReader.next (r : sepReader) : Option (List Char) × sepReader :=
  match r.b with
  | none => (none, r)
  | some l =>
    match l.findIdx? (· == r.s) with
    | none => (some l, { r with b := none })
    | some i => (some (l.take i), { r with b := some (l.drop (i + 1)) })

/-- Iterate `sepReader.next` until exhaustion, collecting the tokens.  The
fuel argument only needs to exceed the number of tokens. -/
def sepReader.tokens : Nat → sepReader → List (List Char)
  | 0, _ => []
  | fuel + 1, r =>
    match r.next with
    | (none, _) => []
    | (some t, r2) => t :: r2.tokens fuel

/-- All tokens produced by a `sepReader` over backing slice `l` with
separator `c`. -/
def sepTokens (l : List Char) (c : Char) : List (List Char) :=
  sepReader.tokens (l.length + 1) { b := some l, s := c }

/-- Go `bytes.SplitN(l, c, 2)`: split at the first occurrence of `c` only;
a list without `c` stays in one piece. -/
def splitN2 (l : List Char) (c : Char) : List (List Char) :=
  match l.findIdx? (· == c) with
  | none => [l]
  | some i => [l.take i, l.drop (i + 1)]

/-- Default header built at the top of `Reader.ReadHeader`: legacy version,
single default feature `v`, 100 ms interval. -/
def defaultHeader : Header :=
  { Version := 0, Typ := [], Features := [toL ("v")], Interval := 100,
    MD5Sum := [] }

/-- Dispatch of one `key:value` header field, mirroring the `switch` in
`Reader.ReadHeader`; a field without a colon is skipped (`len(parts) != 2`). -/
def processField (h : Header) (field : List Char) : Except Err Header :=
  match splitN2 field ':' with
  | [k, v] =>
    if k = toL ("V") then
      match atoi v with
      | none => .error (.invalidVersion v)
      | some n => .ok { h with Version := n }
    else if k = toL ("T") then .ok { h with Typ := v }
    else if k = toL ("F") then .ok { h with Features := v.splitOn ',' }
    else if k = toL ("S") then
      match atoi v with
      | none => .error (.invalidSValue v)
      | some n => .ok { h with Interval := n }
    else if k = toL ("M") then .ok { h with MD5Sum := v }
    else .ok h
  | _ => .ok h

/-- Fold `processField` over the `;`-separated header fields, stopping at the
first error exactly as the Go loop returns early. -/
def processFields : Header → List (List Char) → Except Err Header
  | h, [] => .ok h
  | h, f :: fs =>
    match processField h f with
    | .error e => .error e
    | .ok h2 => processFields h2 fs

/-- Go `Reader.ReadHeader`: peek two bytes; without a `V:` prefix return the
default header consuming nothing; otherwise read up to `#`, strip it, split
on `;` and process each field.  The result carries the unread remainder of
the stream. -/
def ReadHeader (bufSize : Nat) (s : List Char) :
    Except Err (Header × List Char) :=
  if s.length < 2 then .error (.cannotPeekVersion .eof)
  else if s.take 2 ≠ toL ("V:") then .ok (defaultHeader, s)
  else
    match readSlice '#' bufSize s with
    | (b, rest, none) =>
      match processFields defaultHeader ((trimSuffix1 b '#').splitOn ';') with
      | .error e => .error e
      | .ok h => .ok (h, rest)
    | (_, _, some e) => .error e

/-- Loop body of `Reader.ReadAllV0Points`: read up to each comma, trim, skip
blank tokens, parse each value as `uint8`, one single-element point per
value.  `readSlice` only ever reports `eof` or `bufferFull`; the Go guard
`err != nil && !errors.Is(err, io.EOF)` is therefore the `bufferFull` test. -/
def ReadAllV0Go (bufSize : Nat) :
    Nat → List (List Nat) → List Char → Except Err (List (List Nat))
  | 0, _, _ => .error .eof
  | fuel + 1, acc, s =>
    let r := readSlice ',' bufSize s
    if r.2.2 = some Err.bufferFull then
      .error (.cannotReadPoint Err.bufferFull)
    else
      let b1 := trimSpace (trimSuffix1 r.1 ',')
      if b1 = [] then
        if r.2.2.isSome then .ok acc else ReadAllV0Go bufSize fuel acc r.2.1
      else
        match parseUint8 b1 with
        | none => .error (.parsePointV0 b1)
        | some v =>
          if r.2.2.isSome then .ok (acc ++ [[v]])
          else ReadAllV0Go bufSize fuel (acc ++ [[v]]) r.2.1

/-- Go `Reader.ReadAllV0Points` on the remaining stream. -/
def ReadAllV0Points (bufSize : Nat) (s : List Char) :
    Except Err (List (List Nat)) :=
  ReadAllV0Go bufSize (s.length + 1) [] s

/-- Inner loop of `Reader.ReadAllV1Points`: pull `stride` many comma-separated
tokens out of group `b` through a `sepReader`; running out of tokens is the
stride-violation error naming the group and the stride, a non-numeric token
is an invalid-point error. -/
def consumePointsGo (b : List Char) (stride : Nat) :
    sepReader → Nat → Except Err (List Nat)
  | _, 0 => .ok []
  | r, n + 1 =>
    match r.next with
    | (none, _) => .error (.strideViolation b stride)
    | (some tok, r2) =>
      match parseUint8 tok with
      | none => .error (.invalidPoint tok)
      | some v =>
        match consumePointsGo b stride r2 n with
        | .error e => .error e
        | .ok vs => .ok (v :: vs)

/-- Consume exactly `stride` values from group `b` (Go's `for i < stride`
loop over `sepReader{b: b, s: ','}`). -/
def consumePoints (b : List Char) (stride : Nat) : Except Err (List Nat) :=
  consumePointsGo b stride { b := some b, s := ',' } stride

/-- Outer loop of `Reader.ReadAllV1Points`: read `;`-terminated groups, trim,
skip blank groups, fix the stride from the first non-empty group as its
comma count plus one, and flatten each group's first `stride` values into
the backing list. -/
def ReadAllV1Go (bufSize : Nat) :
    Nat → Option Nat → List Nat → List Char → Except Err (List Nat × Option Nat)
  | 0, _, _, _ => .error .eof
  | fuel + 1, stride, backing, s =>
    let r := readSlice ';' bufSize s
    if r.2.2 = some Err.bufferFull then .error (.cannotRead Err.bufferFull)
    else
      let b1 := trimSpace (trimSuffix1 r.1 ';')
      if b1 = [] then
        if r.2.2.isSome then .ok (backing, stride)
        else ReadAllV1Go bufSize fuel stride backing r.2.1
      else
        let k := stride.getD (b1.count ',' + 1)
        match consumePoints b1 k with
        | .error e => .error e
        | .ok vs =>
          if r.2.2.isSome then .ok (backing ++ vs, some k)
          else ReadAllV1Go bufSize fuel (some k) (backing ++ vs) r.2.1

/-- Cut the flattened backing list into consecutive chunks of length `k`
(Go's final `for head < len(backing)` loop); fuel bounds the step count. -/
def chunksGo (k : Nat) : Nat → List Nat → List (List Nat)
  | 0, _ => []
  | _, [] => []
  | fuel + 1, l => l.take k :: chunksGo k fuel (l.drop k)

/-- Chunk a list into groups of `k` (sufficient fuel supplied). -/
def chunks (k : Nat) (l : List Nat) : List (List Nat) :=
  chunksGo k l.length l

/-- Go `Reader.ReadAllV1Points` on the remaining stream: run the group loop,
then slice the backing list at the stride (no stride means no group was
seen, so there are no points). -/
def ReadAllV1Points (bufSize : Nat) (s : List Char) :
    Except Err (List (List Nat)) :=
  match ReadAllV1Go bufSize (s.length + 1) none [] s with
  | .error e => .error e
  | .ok (_, none) => .ok []
  | .ok (backing, some k) => .ok (chunks k backing)

/-- Version dispatch in `Parse`: `V0` and `V1` run their decoders (wrapping
errors), the literal case `2` is the unknown-version error, and every other
version falls through the `switch` leaving the points empty. -/
def pointsForVersion (bufSize : Nat) (v : Int) (s : List Char) :
    Except Err (List (List Nat)) :=
  if v = V0 then (ReadAllV0Points bufSize s).mapError .cannotReadAllV0
  else if v = V1 then (ReadAllV1Points bufSize s).mapError .cannotReadAllV1
  else if v = 2 then .error (.unknownVersion v)
  else .ok []

/-- Go `Parse`: read the header, decode the version-appropriate points, and
enforce that a non-empty point list has its first point as wide as the
feature list. -/
def Parse (bufSize : Nat) (s : List Char) : Except Err Pattern :=
  match ReadHeader bufSize s with
  | .error e => .error (.cannotReadHeader e)
  | .ok (h, rest) =>
    match pointsForVersion bufSize h.Version rest with
    | .error e => .error e
    | .ok p =>
      if p ≠ [] ∧ (p.headD []).length ≠ h.Features.length then
        .error (.motorMismatch h.Features.length (p.headD []).length)
      else .ok { toHeader := h, Points := p }

/-- Join comma-separated tokens into one data group. -/
def mkGroup (g : List (List Char)) : List Char := List.intercalate [','] g

/-- Join `;`-terminated groups into a standard-format data section. -/
def mkBody (gs : List (List (List Char))) : List Char :=
  (gs.map (fun g => mkGroup g ++ [';'])).flatten

/-- Value of a token that parses as a `uint8` (0 as a dummy otherwise). -/
def tokVal (t : List Char) : Nat := (parseUint8 t).getD 0

/-- A token accepted by `strconv.ParseUint(_, 10, 8)`. -/
def okTok (t : List Char) : Bool := (parseUint8 t).isSome

/-- The default header with its version replaced, as produced by decoding a
header whose only field is `V:n`. -/
def mkVHeader (v : Int) : Header := { defaultHeader with Version := v }

/-- Points a legacy stream decodes to: split on commas, trim each token,
skip blank tokens, and turn each remaining token into a one-element point. -/
def v0Result (s : List Char) : List (List Nat) :=
  (((s.splitOn ',').map trimSpace).filter (fun t => !t.isEmpty)).map
    (fun t => [tokVal t])

theorem findIdx?_all_none {p : Char → Bool} {l : List Char}
    (h : ∀ x ∈ l, p x = false) : List.findIdx? p l = none :=
  List.findIdx?_eq_none_iff.mpr h

theorem findIdx?_first {p : Char → Bool} (pre : List Char) (a : Char)
    (post : List Char) (hpre : ∀ x ∈ pre, p x = false) (ha : p a = true) :
    List.findIdx? p (pre ++ a :: post) = some pre.length := by
  induction pre with
  | nil => simp [List.findIdx?_cons, ha]
  | cons y ys ih =>
    have hy : p y = false := hpre y (by simp)
    have ih2 := ih (fun x hx => hpre x (by simp [hx]))
    simp only [List.cons_append, List.findIdx?_cons, hy, Bool.false_eq_true,
      if_false, List.findIdx?_succ, ih2, Option.map_some', List.length_cons]

theorem not_mem_all_bne {c : Char} {l : List Char} (h : c ∉ l) :
    ∀ x ∈ l, (x == c) = false := by
  intro x hx
  exact beq_eq_false_iff_ne.mpr (fun e => h (e ▸ hx))

theorem readSlice_found {delim : Char} {bufSize : Nat} {pre post : List Char}
    (hpre : delim ∉ pre) (hlen : pre.length < bufSize) :
    readSlice delim bufSize (pre ++ delim :: post) =
      (pre ++ [delim], post, none) := by
  unfold readSlice
  rw [findIdx?_first pre delim post (not_mem_all_bne hpre) (by simp)]
  have ht : (pre ++ delim :: post).take (pre.length + 1) = pre ++ [delim] := by
    have h1 := @List.take_append _ pre (delim :: post) 1
    simpa using h1
  have hd : (pre ++ delim :: post).drop (pre.length + 1) = post := by
    simp
  simp [hlen, ht, hd]

theorem readSlice_eof {delim : Char} {bufSize : Nat} {s : List Char}
    (hmem : delim ∉ s) (hlen : s.length < bufSize) :
    readSlice delim bufSize s = (s, [], some .eof) := by
  unfold readSlice
  rw [findIdx?_all_none (not_mem_all_bne hmem)]
  simp [hlen]

theorem exists_first_split {c : Char} {l : List Char} (h : c ∈ l) :
    ∃ pre post, l = pre ++ c :: post ∧ c ∉ pre := by
  induction l with
  | nil => simp at h
  | cons a l ih =>
    by_cases hac : a = c
    · exact ⟨[], l, by simp [hac], by simp⟩
    · have hc : c ∈ l := by
        rcases List.mem_cons.mp h with h1 | h1
        · exact absurd h1.symm hac
        · exact h1
      obtain ⟨pre, post, hl, hpre⟩ := ih hc
      exact ⟨a :: pre, post, by simp [hl], by
        simp only [List.mem_cons, not_or]
        exact ⟨fun e => hac e.symm, hpre⟩⟩

theorem trimSuffix1_concat (l : List Char) (c : Char) :
    trimSuffix1 (l ++ [c]) c = l := by
  simp [trimSuffix1, List.getLast?_concat, List.dropLast_concat]

theorem trimSuffix1_of_not_mem {l : List Char} {c : Char} (h : c ∉ l) :
    trimSuffix1 l c = l := by
  unfold trimSuffix1
  have : l.getLast? ≠ some c := by
    intro he
    exact h (List.mem_of_mem_getLast? he)
  simp [this]

theorem dropWhile_eq_self_of_all {p : Char → Bool} {l : List Char}
    (h : ∀ x ∈ l, p x = false) : l.dropWhile p = l := by
  cases l with
  | nil => rfl
  | cons a l => simp [List.dropWhile_cons, h a (by simp)]

theorem trimSpace_eq_self {l : List Char}
    (h : ∀ x ∈ l, isSpaceB x = false) : trimSpace l = l := by
  unfold trimSpace
  rw [dropWhile_eq_self_of_all h,
    dropWhile_eq_self_of_all (fun x hx => h x (List.mem_reverse.mp hx)),
    List.reverse_reverse]

theorem splitOn_of_not_mem {c : Char} {l : List Char} (h : c ∉ l) :
    l.splitOn c = [l] := by
  induction l with
  | nil => rfl
  | cons a l ih =>
    have hac : (a == c) = false :=
      beq_eq_false_iff_ne.mpr (fun e => h (by simp [e]))
    have hcl : c ∉ l := fun hx => h (by simp [hx])
    simp only [List.splitOn, List.splitOnP_cons, hac, Bool.false_eq_true,
      if_false] at ih ⊢
    rw [ih hcl]
    rfl

theorem splitOn_first {c : Char} {pre : List Char} (post : List Char)
    (h : c ∉ pre) : (pre ++ c :: post).splitOn c = pre :: post.splitOn c := by
  induction pre with
  | nil => simp [List.splitOn, List.splitOnP_cons]
  | cons a pre ih =>
    have hac : (a == c) = false :=
      beq_eq_false_iff_ne.mpr (fun e => h (by simp [e]))
    have hcp : c ∉ pre := fun hx => h (by simp [hx])
    have ih2 := ih hcp
    simp only [List.splitOn, List.splitOnP_cons, hac, Bool.false_eq_true,
      if_false, List.cons_append] at ih2 ⊢
    rw [ih2]
    rfl

theorem clampF_of_nonneg {f : ℚ} (h : 0 ≤ f) : clampF f = min 1 f := by
  unfold clampF
  rcases lt_or_le 1 f with h1 | h1
  · simp [not_lt.mpr h, h1, min_eq_left h1.le]
  · simp [not_lt.mpr h, not_lt.mpr h1, min_eq_right h1]

/-- Claim C5: `Strength.Scale` divides by 100 for the legacy version and by
20 for the standard version, clamping the ratio into `[0, 1]` instead of
erroring; in particular a legacy 150 scales to exactly 1 and a standard 25
scales to exactly 1. -/
theorem claim_C5 :
    (∀ s : Strength, Strength.Scale s V0 = min 1 ((s : ℚ) / 100) ∧
      Strength.Scale s V1 = min 1 ((s : ℚ) / 20)) ∧
    (∀ (s : Strength) (v : Int),
      0 ≤ Strength.Scale s v ∧ Strength.Scale s v ≤ 1) ∧
    Strength.Scale 150 V0 = 1 ∧ Strength.Scale 25 V1 = 1 := by
  have h0 : ∀ s : Strength, Strength.Scale s V0 = clampF ((s : ℚ) / 100) := by
    intro s
    norm_num [Strength.Scale, V0, V1]
  have h1 : ∀ s : Strength, Strength.Scale s V1 = clampF ((s : ℚ) / 20) := by
    intro s
    norm_num [Strength.Scale, V0, V1]
  have hs : ∀ s : Strength, Strength.Scale s V0 = min 1 ((s : ℚ) / 100) ∧
      Strength.Scale s V1 = min 1 ((s : ℚ) / 20) := by
    intro s
    rw [h0, h1, clampF_of_nonneg (by positivity),
      clampF_of_nonneg (by positivity)]
    exact ⟨rfl, rfl⟩
  refine ⟨hs, ?_, ?_, ?_⟩
  · intro s v
    unfold Strength.Scale
    split_ifs with h0 h1
    · rw [clampF_of_nonneg (by positivity)]
      constructor
      · exact le_min (by norm_num) (by positivity)
      · exact min_le_left _ _
    · rw [clampF_of_nonneg (by positivity)]
      constructor
      · exact le_min (by norm_num) (by positivity)
      · exact min_le_left _ _
    · norm_num
  · rw [(hs 150).1]
    norm_num
  · rw [(hs 25).2]
    norm_num

/-- Claim C10: a stream with fewer than two bytes (including the empty
stream) makes the initial two-byte version peek fail, so `Parse` returns
the wrapped peek error and never yields a pattern. -/
theorem claim_C10 : ∀ (bufSize : Nat) (s : List Char), s.length < 2 →
    Parse bufSize s = .error (.cannotReadHeader (.cannotPeekVersion .eof)) := by
  intro bufSize s h
  unfold Parse ReadHeader
  rw [if_pos h]

/-- Witness for claim C10 at the one-byte stream `"5"` (and the empty
stream). -/
theorem claim_C10_witness :
    Parse 4096 (toL ("5")) =
      .error (.cannotReadHeader (.cannotPeekVersion .eof)) ∧
    Parse 4096 (toL ("")) =
      .error (.cannotReadHeader (.cannotPeekVersion .eof)) :=
  ⟨claim_C10 4096 (toL ("5")) (by decide), claim_C10 4096 (toL ("")) (by decide)⟩

theorem tokens_exhausted (fuel : Nat) (c : Char) :
    sepReader.tokens fuel { b := none, s := c } = [] := by
  cases fuel <;> rfl

theorem tokens_succ (fuel : Nat) (r : sepReader) :
    sepReader.tokens (fuel + 1) r =
      match r.next with
      | (none, _) => []
      | (some t, r2) => t :: r2.tokens fuel := rfl

theorem next_live (l : List Char) (c : Char) :
    sepReader.next { b := some l, s := c } =
      match List.findIdx? (· == c) l with
      | none => (some l, { b := none, s := c })
      | some i => (some (l.take i), { b := some (l.drop (i + 1)), s := c }) :=
  rfl

theorem findIdx?_cons_bne {a c : Char} {l : List Char} (h : (a == c) = false) :
    List.findIdx? (· == c) (a :: l) =
      (List.findIdx? (· == c) l).map (· + 1) := by
  rw [List.findIdx?_cons, h]
  simp [List.findIdx?_succ]

theorem tokens_splitOn : ∀ (n : Nat) (l : List Char) (c : Char) (fuel : Nat),
    l.length ≤ n → l.length < fuel →
    sepReader.tokens fuel { b := some l, s := c } = l.splitOn c := by
  intro n
  induction n with
  | zero =>
    intro l c fuel h hf
    have hl : l = [] := List.length_eq_zero.mp (Nat.le_zero.mp h)
    subst hl
    obtain ⟨f, rfl⟩ : ∃ f, fuel = f + 1 := ⟨fuel - 1, by omega⟩
    rw [tokens_succ, next_live]
    simp [tokens_exhausted, List.splitOn, List.splitOnP_nil]
  | succ n ih =>
    intro l c fuel h hf
    obtain ⟨f, rfl⟩ : ∃ f, fuel = f + 1 := ⟨fuel - 1, by omega⟩
    cases l with
    | nil =>
      rw [tokens_succ, next_live]
      simp [tokens_exhausted, List.splitOn, List.splitOnP_nil]
    | cons a l =>
      rw [tokens_succ, next_live]
      rcases hac : a == c with _ | _
      · rw [findIdx?_cons_bne hac]
        rcases hj : List.findIdx? (· == c) l with _ | j
        · have hnc : ∀ x ∈ l, (x == c) = false :=
            List.findIdx?_eq_none_iff.mp hj
          have hsp : l.splitOn c = [l] :=
            splitOn_of_not_mem (fun hm => by simpa using hnc c hm)
          simp only [Option.map_none']
          simp only [List.splitOn, List.splitOnP_cons, hac,
            Bool.false_eq_true, if_false]
          simp only [List.splitOn] at hsp
          rw [hsp, tokens_exhausted]
          rfl
        · have hlne : l ≠ [] := by
            intro he
            rw [he] at hj
            simp [List.findIdx?] at hj
          have hlpos : 0 < l.length := List.length_pos.mpr hlne
          have hln : l.length ≤ n := by simpa using h
          have hlf : l.length < f := by
            simp only [List.length_cons] at hf
            omega
          have e1 : sepReader.tokens f { b := some (l.drop (j + 1)), s := c } =
              (l.drop (j + 1)).splitOn c := by
            apply ih
            · rw [List.length_drop]; omega
            · rw [List.length_drop]; omega
          have e2 : sepReader.tokens l.length
                { b := some (l.drop (j + 1)), s := c } =
              (l.drop (j + 1)).splitOn c := by
            apply ih
            · rw [List.length_drop]; omega
            · rw [List.length_drop]; omega
          have e3 : l.splitOn c =
              l.take j :: sepReader.tokens l.length
                { b := some (l.drop (j + 1)), s := c } := by
            rw [← ih l c (l.length + 1) hln (by omega)]
            conv_lhs => rw [tokens_succ, next_live, hj]
          simp only [Option.map_some']
          simp only [List.splitOn, List.splitOnP_cons, hac,
            Bool.false_eq_true, if_false]
          simp only [List.splitOn] at e3
          rw [e3]
          simp only [List.take_succ_cons, List.drop_succ_cons,
        List.modifyHead_cons]
          rw [e1, e2]
      · rw [List.findIdx?_cons, hac]
        simp only [if_true]
        have hln : l.length ≤ n := by simpa using h
        have hlf : l.length < f := by
          simp only [List.length_cons] at hf
          omega
        simp only [List.take_zero, List.drop_succ_cons, List.drop_zero]
        rw [ih l c f hln hlf]
        simp [List.splitOn, List.splitOnP_cons, hac]

/-- Claim C7: successive `sepReader.next` calls over a backing slice yield
exactly the delimiter-separated tokens in order — each token strictly
before the next delimiter, zero-length tokens between consecutive
delimiters included, then the entire remaining slice once when no
delimiter remains (this is precisely `List.splitOn`) — and once exhausted
every further call returns `none` and leaves the state exhausted; scanning
`"0,1,2,3,4,5,6,7,8,9,10"` with delimiter `,` yields the eleven tokens
`"0" .. "10"` in order. -/
theorem claim_C7 :
    (∀ (l : List Char) (c : Char), sepTokens l c = l.splitOn c) ∧
    (∀ c : Char,
      sepReader.next { b := none, s := c } = (none, { b := none, s := c })) ∧
    sepTokens (toL ("0,1,2,3,4,5,6,7,8,9,10")) ',' =
      [toL ("0"), toL ("1"), toL ("2"), toL ("3"), toL ("4"), toL ("5"),
        toL ("6"), toL ("7"), toL ("8"), toL ("9"), toL ("10")] := by
  refine ⟨fun l c => tokens_splitOn l.length l c (l.length + 1) le_rfl
    (by omega), fun c => rfl, by decide⟩

/-- Counterexample to claim C8: the header field `T:a:b` contains two
colons, yet it is not ignored — `bytes.SplitN(field, ":", 2)` still yields
two parts, so the device type is set to `a:b` and the decoded header
differs from the one decoded without that field. -/
theorem claim_C8_cex :
    ReadHeader 4096 (toL ("V:0;T:a:b;#")) ≠ ReadHeader 4096 (toL ("V:0;#")) := by
  decide

theorem splitN2_no_colon {f : List Char} (h : ∀ x ∈ f, x ≠ ':') :
    splitN2 f ':' = [f] := by
  unfold splitN2
  rw [findIdx?_all_none (fun x hx => beq_eq_false_iff_ne.mpr (h x hx))]

theorem splitN2_first_colon {k v : List Char} (h : ∀ x ∈ k, x ≠ ':') :
    splitN2 (k ++ ':' :: v) ':' = [k, v] := by
  unfold splitN2
  rw [findIdx?_first k ':' v (fun x hx => beq_eq_false_iff_ne.mpr (h x hx))
    (by simp)]
  have hd : (k ++ ':' :: v).drop (k.length + 1) = v := by simp
  show [(k ++ ':' :: v).take k.length, (k ++ ':' :: v).drop (k.length + 1)] =
    [k, v]
  rw [List.take_left, hd]

theorem processFields_cons (h : Header) (f : List Char)
    (fs : List (List Char)) :
    processFields h (f :: fs) =
      match processField h f with
      | .error e => .error e
      | .ok h2 => processFields h2 fs := rfl

theorem processField_no_colon {hd : Header} {f : List Char}
    (h : ∀ x ∈ f, x ≠ ':') : processField hd f = .ok hd := by
  unfold processField
  rw [splitN2_no_colon h]

/-- Amended claim C8: a header field containing no colon is skipped with no
effect on the resulting header and no error, but a field with two or more
colons is not ignored — `SplitN(field, ":", 2)` splits it at the first
colon, so the text before the first colon is the key and everything after
it (colons included) is the value. -/
theorem claim_C8_amended :
    ∀ (h : Header) (fs1 fs2 : List (List Char)) (f : List Char),
    (∀ x ∈ f, x ≠ ':') →
    (processFields h (fs1 ++ f :: fs2) = processFields h (fs1 ++ fs2)) ∧
    (∀ k v : List Char, (∀ x ∈ k, x ≠ ':') →
      splitN2 (k ++ ':' :: v) ':' = [k, v]) := by
  intro h fs1 fs2 f hf
  constructor
  · induction fs1 generalizing h with
    | nil =>
      simp only [List.nil_append]
      rw [processFields_cons, processField_no_colon hf]
    | cons f1 fs1 ih =>
      simp only [List.cons_append]
      rw [processFields_cons, processFields_cons]
      cases processField h f1 with
      | error e => rfl
      | ok h2 => exact ih h2
  · exact fun k v hk => splitN2_first_colon hk

/-- Witness for the amended claim C8: the colon-free field `junk` between
`V:1` and `S:50` is ignored, and the two-colon field `T:a:b` splits into
key `T` and value `a:b`. -/
theorem claim_C8_amended_witness :
    processFields defaultHeader [toL ("V:1"), toL ("junk"), toL ("S:50")] =
      processFields defaultHeader [toL ("V:1"), toL ("S:50")] ∧
    splitN2 (toL ("T") ++ ':' :: toL ("a:b")) ':' = [toL ("T"), toL ("a:b")] := by
  have h := claim_C8_amended defaultHeader [toL ("V:1")] [toL ("S:50")]
    (toL ("junk")) (by decide)
  exact ⟨h.1, h.2 (toL ("T")) (toL ("a:b")) (by decide)⟩

theorem Parse_eq (bufSize : Nat) (s : List Char) (h : Header)
    (rest : List Char) (hread : ReadHeader bufSize s = .ok (h, rest)) :
    Parse bufSize s =
      match pointsForVersion bufSize h.Version rest with
      | .error e => .error e
      | .ok p =>
        if p ≠ [] ∧ (p.headD []).length ≠ h.Features.length then
          .error (.motorMismatch h.Features.length (p.headD []).length)
        else .ok { toHeader := h, Points := p } := by
  unfold Parse
  rw [hread]

/-- Claim C9: a decoded header declaring version exactly 2 makes `Parse`
fail with the unknown-version error, while any version outside `{0, 1, 2}`
falls through the version switch so `Parse` reads no points at all and
succeeds with an empty point list. -/
theorem claim_C9 :
    ∀ (bufSize : Nat) (s : List Char) (h : Header) (rest : List Char),
    ReadHeader bufSize s = .ok (h, rest) →
    (h.Version = 2 → Parse bufSize s = .error (.unknownVersion 2)) ∧
    (h.Version ≠ 0 → h.Version ≠ 1 → h.Version ≠ 2 →
      Parse bufSize s = .ok { toHeader := h, Points := [] }) := by
  intro bufSize s h rest hread
  constructor
  · intro hv
    have hp : pointsForVersion bufSize h.Version rest =
        .error (.unknownVersion 2) := by
      unfold pointsForVersion
      rw [hv]
      norm_num [V0, V1]
    rw [Parse_eq bufSize s h rest hread, hp]
  · intro h0 h1 h2
    have hp : pointsForVersion bufSize h.Version rest = .ok [] := by
      unfold pointsForVersion
      rw [if_neg (by simpa [V0] using h0), if_neg (by simpa [V1] using h1),
        if_neg h2]
    rw [Parse_eq bufSize s h rest hread, hp]
    simp

/-- Witness for claim C9: `V:2` headers are rejected, `V:3` and `V:-1`
headers decode to a pattern with no points. -/
theorem claim_C9_witness :
    Parse 4096 (toL ("V:2;#")) = .error (.unknownVersion 2) ∧
    Parse 4096 (toL ("V:3;#1,2")) =
      .ok { toHeader := mkVHeader 3, Points := [] } ∧
    Parse 4096 (toL ("V:-1;#1,2")) =
      .ok { toHeader := mkVHeader (-1), Points := [] } := by
  refine ⟨(claim_C9 4096 (toL ("V:2;#")) (mkVHeader 2) []
      (by decide)).1 rfl,
    (claim_C9 4096 (toL ("V:3;#1,2")) (mkVHeader 3) (toL ("1,2"))
      (by decide)).2 (by decide) (by decide) (by decide),
    (claim_C9 4096 (toL ("V:-1;#1,2")) (mkVHeader (-1)) (toL ("1,2"))
      (by decide)).2 (by decide) (by decide) (by decide)⟩

theorem ReadAllV0Go_step {bufSize : Nat} (fuel : Nat)
    {s b rest : List Char} {e : Option Err} {acc : List (List Nat)}
    (hr : readSlice ',' bufSize s = (b, rest, e)) :
    ReadAllV0Go bufSize (fuel + 1) acc s =
      (if e = some Err.bufferFull then
        .error (.cannotReadPoint Err.bufferFull)
      else if trimSpace (trimSuffix1 b ',') = [] then
        (if e.isSome then .ok acc else ReadAllV0Go bufSize fuel acc rest)
      else
        match parseUint8 (trimSpace (trimSuffix1 b ',')) with
        | none => .error (.parsePointV0 (trimSpace (trimSuffix1 b ',')))
        | some v =>
          if e.isSome then .ok (acc ++ [[v]])
          else ReadAllV0Go bufSize fuel (acc ++ [[v]]) rest) := by
  obtain ⟨hb, hrest, he⟩ : b = (readSlice ',' bufSize s).1 ∧
      rest = (readSlice ',' bufSize s).2.1 ∧
      e = (readSlice ',' bufSize s).2.2 := by
    rw [hr]
    exact ⟨rfl, rfl, rfl⟩
  subst hb
  subst hrest
  subst he
  rfl

theorem okTok_getD {t : List Char} (h : okTok t = true) :
    parseUint8 t = some (tokVal t) := by
  unfold okTok at h
  obtain ⟨v, hv⟩ := Option.isSome_iff_exists.mp h
  rw [tokVal, hv]
  rfl

theorem v0Result_no_comma {s : List Char} (hc : ',' ∉ s) :
    v0Result s =
      if trimSpace s = [] then [] else [[tokVal (trimSpace s)]] := by
  unfold v0Result
  rw [splitOn_of_not_mem hc]
  by_cases hb : trimSpace s = []
  · simp [hb]
  · simp [List.filter_cons, List.isEmpty_iff, hb]

theorem v0Result_comma {pre : List Char} (post : List Char)
    (hc : ',' ∉ pre) :
    v0Result (pre ++ ',' :: post) =
      (if trimSpace pre = [] then [] else [[tokVal (trimSpace pre)]]) ++
        v0Result post := by
  unfold v0Result
  rw [splitOn_first post hc]
  by_cases hb : trimSpace pre = []
  · simp [hb, List.filter_cons]
  · simp [List.filter_cons, List.isEmpty_iff, hb]

theorem v0_spec : ∀ (n bufSize : Nat) (s : List Char)
    (acc : List (List Nat)) (fuel : Nat),
    s.length ≤ n → s.length < fuel →
    (∀ seg ∈ s.splitOn ',', seg.length < bufSize) →
    (∀ seg ∈ s.splitOn ',',
      trimSpace seg = [] ∨ okTok (trimSpace seg) = true) →
    ReadAllV0Go bufSize fuel acc s = .ok (acc ++ v0Result s) := by
  intro n
  induction n with
  | zero =>
    intro bufSize s acc fuel h hf hseg htok
    have hs : s = [] := List.length_eq_zero.mp (Nat.le_zero.mp h)
    subst hs
    obtain ⟨f, rfl⟩ : ∃ f, fuel = f + 1 := ⟨fuel - 1, by omega⟩
    have hb : (0 : Nat) < bufSize := by
      have := hseg [] (by rw [splitOn_of_not_mem (by simp)]; simp)
      simpa using this
    rw [ReadAllV0Go_step f (readSlice_eof (by simp) (by simpa using hb))]
    have h1 : trimSpace (trimSuffix1 ([] : List Char) ',') = [] := rfl
    have h2 : v0Result ([] : List Char) = [] := rfl
    rw [h1, h2]
    simp
  | succ n ih =>
    intro bufSize s acc fuel h hf hseg htok
    obtain ⟨f, rfl⟩ : ∃ f, fuel = f + 1 := ⟨fuel - 1, by omega⟩
    by_cases hc : ',' ∈ s
    · obtain ⟨pre, post, rfl, hpre⟩ := exists_first_split hc
      have hsplit : (pre ++ ',' :: post).splitOn ',' =
          pre :: post.splitOn ',' := splitOn_first post hpre
      have hplen : pre.length < bufSize := by
        have := hseg pre (by rw [hsplit]; simp)
        exact this
      rw [ReadAllV0Go_step f (readSlice_found hpre hplen)]
      have hsuf : trimSuffix1 (pre ++ [',']) ',' = pre :=
        trimSuffix1_concat pre ','
      have hlen : post.length ≤ n ∧ post.length < f := by
        simp only [List.length_append, List.length_cons] at h hf
        omega
      have hseg2 : ∀ seg ∈ post.splitOn ',', seg.length < bufSize :=
        fun seg hm => hseg seg (by rw [hsplit]; simp [hm])
      have htok2 : ∀ seg ∈ post.splitOn ',',
          trimSpace seg = [] ∨ okTok (trimSpace seg) = true :=
        fun seg hm => htok seg (by rw [hsplit]; simp [hm])
      rw [v0Result_comma post hpre]
      by_cases hbe : trimSpace pre = []
      · simp only [hsuf, hbe, if_pos rfl, reduceCtorEq, if_false,
          Option.isSome_none, Bool.false_eq_true]
        rw [ih bufSize post acc f hlen.1 hlen.2 hseg2 htok2]
        simp [hbe]
      · have hok : okTok (trimSpace pre) = true := by
          rcases htok pre (by rw [hsplit]; simp) with h1 | h1
          · exact absurd h1 hbe
          · exact h1
        simp only [hsuf, hbe, if_neg hbe, reduceCtorEq, if_false,
          okTok_getD hok, Option.isSome_none, Bool.false_eq_true]
        rw [ih bufSize post (acc ++ [[tokVal (trimSpace pre)]]) f hlen.1
          hlen.2 hseg2 htok2]
        simp
    · have hslen : s.length < bufSize := by
        have := hseg s (by rw [splitOn_of_not_mem hc]; simp)
        exact this
      rw [ReadAllV0Go_step f (readSlice_eof hc hslen)]
      have hsuf : trimSuffix1 s ',' = s := trimSuffix1_of_not_mem hc
      rw [v0Result_no_comma hc]
      by_cases hbe : trimSpace s = []
      · simp [hsuf, hbe]
      · have hok : okTok (trimSpace s) = true := by
          rcases htok s (by rw [splitOn_of_not_mem hc]; simp) with h1 | h1
          · exact absurd h1 hbe
          · exact h1
        simp [hsuf, hbe, okTok_getD hok]

theorem ReadAllV0Points_spec {bufSize : Nat} {s : List Char}
    (hseg : ∀ seg ∈ s.splitOn ',', seg.length < bufSize)
    (htok : ∀ seg ∈ s.splitOn ',',
      trimSpace seg = [] ∨ okTok (trimSpace seg) = true) :
    ReadAllV0Points bufSize s = .ok (v0Result s) := by
  unfold ReadAllV0Points
  rw [v0_spec s.length bufSize s [] (s.length + 1) le_rfl (by omega) hseg htok]
  simp

/-- Claim C4: a stream of at least two bytes that does not begin with `V:`
decodes with the default header — legacy version 0, the single feature
`v`, a 100 ms interval, empty type and MD5 sum — consuming nothing beyond
the peek, and `Parse` then decodes the whole stream as a flat
comma-delimited sequence of one-element points in file order, skipping
whitespace-only and empty tokens instead of reading them as zeros. -/
theorem claim_C4 : ∀ (bufSize : Nat) (s : List Char),
    2 ≤ s.length → s.take 2 ≠ toL ("V:") →
    (∀ seg ∈ s.splitOn ',', seg.length < bufSize) →
    (∀ seg ∈ s.splitOn ',',
      trimSpace seg = [] ∨ okTok (trimSpace seg) = true) →
    ReadHeader bufSize s = .ok (defaultHeader, s) ∧
    defaultHeader.Version = 0 ∧ defaultHeader.Typ = [] ∧
    defaultHeader.Features = [toL ("v")] ∧ defaultHeader.Interval = 100 ∧
    defaultHeader.MD5Sum = [] ∧
    Parse bufSize s = .ok { toHeader := defaultHeader, Points := v0Result s } ∧
    (∀ q ∈ v0Result s, q.length = 1) := by
  intro bufSize s hlen hv hseg htok
  have hread : ReadHeader bufSize s = .ok (defaultHeader, s) := by
    unfold ReadHeader
    rw [if_neg (by omega), if_pos hv]
  have hone : ∀ q ∈ v0Result s, q.length = 1 := by
    intro q hq
    unfold v0Result at hq
    obtain ⟨t, _, rfl⟩ := List.mem_map.mp hq
    rfl
  refine ⟨hread, rfl, rfl, rfl, rfl, rfl, ?_, hone⟩
  have hp : pointsForVersion bufSize defaultHeader.Version s =
      .ok (v0Result s) := by
    unfold pointsForVersion
    have hv0 : defaultHeader.Version = V0 := rfl
    rw [hv0, if_pos rfl, ReadAllV0Points_spec hseg htok]
    rfl
  rw [Parse_eq bufSize s defaultHeader s hread, hp]
  cases hv0 : v0Result s with
  | nil => simp
  | cons q qs =>
    have h1 : q.length = 1 := hone q (by rw [hv0]; simp)
    simp [h1, defaultHeader, if_neg]

/-- Witness for claim C4 on the bare legacy stream `0,5, ,8,,7`: default
header, whitespace-only and empty tokens skipped. -/
theorem claim_C4_witness :
    ReadHeader 4096 (toL ("0,5, ,8,,7")) =
      .ok (defaultHeader, toL ("0,5, ,8,,7")) ∧
    Parse 4096 (toL ("0,5, ,8,,7")) =
      .ok { toHeader := defaultHeader, Points := [[0], [5], [8], [7]] } := by
  have h := claim_C4 4096 (toL ("0,5, ,8,,7")) (by decide) (by decide)
    (by decide) (by decide)
  exact ⟨h.1, h.2.2.2.2.2.2.1.trans (by decide)⟩

theorem ReadAllV1Go_step {bufSize : Nat} (fuel : Nat)
    {stride : Option Nat} {backing : List Nat} {s b rest : List Char}
    {e : Option Err} {b1 : List Char} {k : Nat}
    (hr : readSlice ';' bufSize s = (b, rest, e))
    (hb1 : trimSpace (trimSuffix1 b ';') = b1)
    (hk : stride.getD (b1.count ',' + 1) = k) :
    ReadAllV1Go bufSize (fuel + 1) stride backing s =
      (if e = some Err.bufferFull then .error (.cannotRead Err.bufferFull)
      else if b1 = [] then
        (if e.isSome then .ok (backing, stride)
         else ReadAllV1Go bufSize fuel stride backing rest)
      else
        match consumePoints b1 k with
        | .error err => .error err
        | .ok vs =>
          if e.isSome then .ok (backing ++ vs, some k)
          else ReadAllV1Go bufSize fuel (some k) (backing ++ vs) rest) := by
  subst hb1
  subst hk
  obtain ⟨hb, hrest, he⟩ : b = (readSlice ';' bufSize s).1 ∧
      rest = (readSlice ';' bufSize s).2.1 ∧
      e = (readSlice ';' bufSize s).2.2 := by
    rw [hr]
    exact ⟨rfl, rfl, rfl⟩
  subst hb
  subst hrest
  subst he
  rfl

theorem consumePointsGo_ok_length {b : List Char} {st : Nat} :
    ∀ (n : Nat) (r : sepReader) (vs : List Nat),
    consumePointsGo b st r n = .ok vs → vs.length = n := by
  intro n
  induction n with
  | zero =>
    intro r vs h
    have h2 : Except.ok (ε := Err) ([] : List Nat) = .ok vs := h
    cases h2
    rfl
  | succ n ih =>
    intro r vs h
    unfold consumePointsGo at h
    split at h
    · cases h
    · split at h
      · cases h
      · split at h
        · cases h
        · cases h
          rename_i r2 hrec
          simp [ih _ _ hrec]

theorem v1_inv : ∀ (fuel bufSize : Nat) (stride : Option Nat)
    (backing : List Nat) (s : List Char) (bk : List Nat) (st : Option Nat),
    ReadAllV1Go bufSize fuel stride backing s = .ok (bk, st) →
    (stride = none → backing = []) →
    (∀ k, stride = some k → 0 < k ∧ k ∣ backing.length) →
    (st = none → bk = []) ∧ (∀ k, st = some k → 0 < k ∧ k ∣ bk.length) := by
  intro fuel
  induction fuel with
  | zero =>
    intro bufSize stride backing s bk st h hn hs
    cases h
  | succ fuel ih =>
    intro bufSize stride backing s bk st h hn hs
    rcases hr : readSlice ';' bufSize s with ⟨b, rest, e⟩
    rw [ReadAllV1Go_step fuel hr rfl rfl] at h
    by_cases he : e = some Err.bufferFull
    · rw [if_pos he] at h
      cases h
    rw [if_neg he] at h
    by_cases hbe : trimSpace (trimSuffix1 b ';') = []
    · rw [if_pos hbe] at h
      cases e with
      | none =>
        simp only [Option.isSome_none, Bool.false_eq_true, if_false] at h
        exact ih bufSize stride backing rest bk st h hn hs
      | some err =>
        simp only [Option.isSome_some, if_true] at h
        cases h
        exact ⟨hn, hs⟩
    · rw [if_neg hbe] at h
      cases hc : consumePoints (trimSpace (trimSuffix1 b ';'))
          (stride.getD ((trimSpace (trimSuffix1 b ';')).count ',' + 1)) with
      | error e2 => rw [hc] at h; cases h
      | ok vs =>
        rw [hc] at h
        have hvs : vs.length =
            stride.getD ((trimSpace (trimSuffix1 b ';')).count ',' + 1) :=
          consumePointsGo_ok_length _ _ vs hc
        have hstep : 0 < stride.getD
              ((trimSpace (trimSuffix1 b ';')).count ',' + 1) ∧
            stride.getD ((trimSpace (trimSuffix1 b ';')).count ',' + 1) ∣
              (backing ++ vs).length := by
          cases stride with
          | none =>
            have hb0 : backing = [] := hn rfl
            subst hb0
            simp only [Option.getD_none] at hvs ⊢
            exact ⟨by omega, by simp [hvs]⟩
          | some k0 =>
            obtain ⟨hk0, hdvd⟩ := hs k0 rfl
            simp only [Option.getD_some] at hvs ⊢
            refine ⟨hk0, ?_⟩
            rw [List.length_append, hvs]
            exact Nat.dvd_add hdvd dvd_rfl
        cases e with
        | none =>
          simp only [Option.isSome_none, Bool.false_eq_true, if_false] at h
          refine ih bufSize _ _ rest bk st h (by simp) ?_
          intro k hk
          cases hk
          exact hstep
        | some err =>
          simp only [Option.isSome_some, if_true] at h
          cases h
          refine ⟨by simp, ?_⟩
          intro k hk
          cases hk
          exact hstep

theorem chunksGo_length {k : Nat} : ∀ (fuel : Nat) (l : List Nat),
    0 < k → k ∣ l.length → l.length ≤ fuel →
    ∀ q ∈ chunksGo k fuel l, q.length = k := by
  intro fuel
  induction fuel with
  | zero =>
    intro l hk hd hl q hq
    simp [chunksGo] at hq
  | succ fuel ih =>
    intro l hk hd hl q hq
    cases l with
    | nil => simp [chunksGo] at hq
    | cons a l' =>
      have hstep : chunksGo k (fuel + 1) (a :: l') =
          (a :: l').take k :: chunksGo k fuel ((a :: l').drop k) := rfl
      rw [hstep] at hq
      have hklen : k ≤ (a :: l').length := by
        rcases hd with ⟨m, hm⟩
        rcases m with _ | m
        · simp at hm
        · rw [hm]
          exact Nat.le_mul_of_pos_right k (by omega)
      rcases List.mem_cons.mp hq with hq1 | hq1
      · rw [hq1, List.length_take]
        omega
      · refine ih ((a :: l').drop k) hk ?_ ?_ q hq1
        · rw [List.length_drop]
          exact Nat.dvd_sub' hd dvd_rfl
        · rw [List.length_drop]
          simp only [List.length_cons] at hl ⊢
          omega

theorem ReadAllV1Points_uniform {bufSize : Nat} {s : List Char}
    {p : List (List Nat)} (h : ReadAllV1Points bufSize s = .ok p) :
    ∀ q ∈ p, q.length = (p.headD []).length := by
  unfold ReadAllV1Points at h
  cases hg : ReadAllV1Go bufSize (s.length + 1) none [] s with
  | error e => rw [hg] at h; cases h
  | ok r =>
    rcases r with ⟨bk, st⟩
    rw [hg] at h
    cases st with
    | none =>
      cases h
      simp
    | some k =>
      cases h
      obtain ⟨-, hinv⟩ := v1_inv (s.length + 1) bufSize none [] s bk (some k)
        hg (fun _ => rfl) (by simp)
      obtain ⟨hk, hdvd⟩ := hinv k rfl
      have hall : ∀ q ∈ chunks k bk, q.length = k :=
        chunksGo_length bk.length bk hk hdvd le_rfl
      intro q hq
      rw [hall q hq]
      have hne : chunks k bk ≠ [] := List.ne_nil_of_mem hq
      obtain ⟨q0, qs, heq⟩ := List.exists_cons_of_ne_nil hne
      rw [heq]
      have h0 : q0.length = k := hall q0 (heq ▸ List.mem_cons_self q0 qs)
      simp [h0]

/-- Claim C1: whenever `Parse` succeeds on a standard-format (version 1)
input, every decoded point has the same length, and that common length
equals the length of the header's feature list. -/
theorem claim_C1 : ∀ (bufSize : Nat) (s : List Char) (pat : Pattern),
    Parse bufSize s = .ok pat → pat.Version = 1 →
    (∀ q ∈ pat.Points, q.length = pat.Features.length) ∧
    (∀ q1 ∈ pat.Points, ∀ q2 ∈ pat.Points, q1.length = q2.length) := by
  intro bufSize s pat h hv
  rcases hre : ReadHeader bufSize s with e | hr
  · unfold Parse at h
    rw [hre] at h
    cases h
  rcases hr with ⟨h0, rest⟩
  rw [Parse_eq bufSize s h0 rest hre] at h
  split at h
  · cases h
  rename_i p hp
  split at h
  · cases h
  rename_i hg
  cases h
  · have hv0 : h0.Version = 1 := hv
    have hv1 : ReadAllV1Points bufSize rest = .ok p := by
      unfold pointsForVersion at hp
      rw [hv0] at hp
      rw [if_neg (by norm_num [V0]), if_pos (by norm_num [V1])] at hp
      cases hq : ReadAllV1Points bufSize rest with
      | error e => rw [hq] at hp; cases hp
      | ok p2 =>
        rw [hq] at hp
        cases hp
        rfl
    have huni := ReadAllV1Points_uniform hv1
    have hfeat : ∀ q ∈ p, q.length = h0.Features.length := by
      intro q hq
      cases hpl : p with
      | nil => rw [hpl] at hq; simp at hq
      | cons q0 qs =>
        rcases not_and_or.mp hg with hg1 | hg1
        · rw [hpl] at hg1; simp at hg1
        · have hhd : (p.headD []).length = h0.Features.length :=
            not_ne_iff.mp hg1
          rw [← hhd]
          exact huni q hq
    refine ⟨hfeat, fun q1 hq1 q2 hq2 => ?_⟩
    rw [hfeat q1 hq1, hfeat q2 hq2]

/-- Witness for claim C1 on `V:1;F:v1,v2;#1,2;3,4;`: both points have
width 2, the declared feature count. -/
theorem claim_C1_witness :
    ([1, 2] : List Nat).length = 2 ∧ ([3, 4] : List Nat).length = 2 := by
  have hpat := claim_C1 4096 (toL ("V:1;F:v1,v2;#1,2;3,4;")) { toHeader := { mkVHeader 1 with Features := [toL ("v1"), toL ("v2")] }, Points := [[1, 2], [3, 4]] } (by decide) rfl
  exact ⟨hpat.1 [1, 2] (by decide), hpat.1 [3, 4] (by decide)⟩

theorem isDigitB_toNat {x : Char} (h : isDigitB x = true) :
    48 ≤ x.toNat ∧ x.toNat ≤ 57 := by
  unfold isDigitB at h
  obtain ⟨h1, h2⟩ := Bool.and_eq_true_iff.mp h
  have g1 : '0' ≤ x := of_decide_eq_true h1
  have g2 : x ≤ '9' := of_decide_eq_true h2
  rw [Char.le_def] at g1 g2
  exact ⟨g1, g2⟩

theorem isDigitB_not_special {x : Char} (h : isDigitB x = true) :
    x ≠ ';' ∧ x ≠ ',' ∧ isSpaceB x = false := by
  obtain ⟨h1, h2⟩ := isDigitB_toNat h
  refine ⟨?_, ?_, ?_⟩
  · intro he
    subst he
    rw [show (';').toNat = 59 from rfl] at h2
    omega
  · intro he
    subst he
    rw [show (',').toNat = 44 from rfl] at h1
    omega
  · unfold isSpaceB
    simp only [Bool.or_eq_false_iff, decide_eq_false_iff_not]
    refine ⟨⟨⟨⟨⟨?_, ?_⟩, ?_⟩, ?_⟩, ?_⟩, ?_⟩ <;>
      · intro he
        subst he
        revert h1 h2
        decide

theorem okTok_props {t : List Char} (h : okTok t = true) :
    t ≠ [] ∧ ∀ x ∈ t, isDigitB x = true := by
  unfold okTok parseUint8 at h
  cases hd : digitsNat t with
  | none => rw [hd] at h; simp at h
  | some n =>
    unfold digitsNat at hd
    by_cases hc : (!t.isEmpty && t.all isDigitB) = true
    · obtain ⟨h1, h2⟩ := Bool.and_eq_true_iff.mp hc
      refine ⟨?_, by simpa [List.all_eq_true] using h2⟩
      intro he
      rw [he] at h1
      simp at h1
    · rw [if_neg hc] at hd
      cases hd

theorem okTok_no_semi {t : List Char} (h : okTok t = true) : ';' ∉ t :=
  fun hm => (isDigitB_not_special ((okTok_props h).2 ';' hm)).1 rfl

theorem okTok_no_comma {t : List Char} (h : okTok t = true) : ',' ∉ t :=
  fun hm => (isDigitB_not_special ((okTok_props h).2 ',' hm)).2.1 rfl

theorem okTok_no_space {t : List Char} (h : okTok t = true) :
    ∀ x ∈ t, isSpaceB x = false :=
  fun x hm => (isDigitB_not_special ((okTok_props h).2 x hm)).2.2

theorem mkGroup_single (t : List Char) : mkGroup [t] = t := by
  simp [mkGroup, List.intercalate]

theorem mkGroup_cons₂ (t : List Char) {g : List (List Char)} (hg : g ≠ []) :
    mkGroup (t :: g) = t ++ ',' :: mkGroup g := by
  obtain ⟨g0, gs, rfl⟩ := List.exists_cons_of_ne_nil hg
  unfold mkGroup List.intercalate
  rw [List.intersperse_cons_cons]
  simp

theorem mkGroup_mem {g : List (List Char)} (htok : ∀ t ∈ g, okTok t = true) :
    ∀ x ∈ mkGroup g, x = ',' ∨ isDigitB x = true := by
  induction g with
  | nil => intro x hx; simp [mkGroup, List.intercalate] at hx
  | cons t g ih =>
    intro x hx
    by_cases hg : g = []
    · subst hg
      rw [mkGroup_single] at hx
      exact Or.inr ((okTok_props (htok t (by simp))).2 x hx)
    · rw [mkGroup_cons₂ t hg] at hx
      rcases List.mem_append.mp hx with hx1 | hx1
      · exact Or.inr ((okTok_props (htok t (by simp))).2 x hx1)
      · rcases List.mem_cons.mp hx1 with hx2 | hx2
        · exact Or.inl hx2
        · exact ih (fun t2 ht2 => htok t2 (by simp [ht2])) x hx2

theorem mkGroup_ne_nil {g : List (List Char)} (hg : g ≠ [])
    (htok : ∀ t ∈ g, okTok t = true) : mkGroup g ≠ [] := by
  obtain ⟨t, ts, rfl⟩ := List.exists_cons_of_ne_nil hg
  have htne : t ≠ [] := (okTok_props (htok t (by simp))).1
  by_cases hts : ts = []
  · subst hts
    rw [mkGroup_single]
    exact htne
  · rw [mkGroup_cons₂ t hts]
    simp [htne]

theorem mkGroup_no_semi {g : List (List Char)}
    (htok : ∀ t ∈ g, okTok t = true) : ';' ∉ mkGroup g := by
  intro hm
  rcases mkGroup_mem htok ';' hm with h1 | h1
  · cases h1
  · exact (isDigitB_not_special h1).1 rfl

theorem mkGroup_no_space {g : List (List Char)}
    (htok : ∀ t ∈ g, okTok t = true) :
    ∀ x ∈ mkGroup g, isSpaceB x = false := by
  intro x hm
  rcases mkGroup_mem htok x hm with h1 | h1
  · subst h1
    rfl
  · exact (isDigitB_not_special h1).2.2

theorem mkGroup_count {g : List (List Char)} (hg : g ≠ [])
    (htok : ∀ t ∈ g, okTok t = true) :
    (mkGroup g).count ',' + 1 = g.length := by
  induction g with
  | nil => cases hg rfl
  | cons t g ih =>
    have hnc : (t.count ',') = 0 :=
      List.count_eq_zero.mpr (okTok_no_comma (htok t (by simp)))
    by_cases hge : g = []
    · subst hge
      rw [mkGroup_single]
      simp [hnc]
    · rw [mkGroup_cons₂ t hge, List.count_append, List.count_cons]
      have ih2 := ih hge (fun t2 ht2 => htok t2 (by simp [ht2]))
      simp only [List.length_cons, hnc]
      simp only [beq_self_eq_true, if_true]
      omega

theorem next_all {l : List Char} {c : Char} (h : c ∉ l) :
    sepReader.next { b := some l, s := c } =
      (some l, { b := none, s := c }) := by
  rw [next_live, findIdx?_all_none (not_mem_all_bne h)]

theorem next_split {pre post : List Char} {c : Char} (h : c ∉ pre) :
    sepReader.next { b := some (pre ++ c :: post), s := c } =
      (some pre, { b := some post, s := c }) := by
  rw [next_live, findIdx?_first pre c post (not_mem_all_bne h) (by simp)]
  have hd : (pre ++ c :: post).drop (pre.length + 1) = post := by simp
  simp [List.take_left, hd]

theorem consumePointsGo_succ (b : List Char) (st : Nat) (r : sepReader)
    (n : Nat) :
    consumePointsGo b st r (n + 1) =
      (match r.next with
      | (none, _) => .error (.strideViolation b st)
      | (some tok, r2) =>
        match parseUint8 tok with
        | none => .error (.invalidPoint tok)
        | some v =>
          match consumePointsGo b st r2 n with
          | .error e => .error e
          | .ok vs => .ok (v :: vs)) := rfl

theorem consume_exhausted (b : List Char) (st m : Nat) :
    consumePointsGo b st { b := none, s := ',' } (m + 1) =
      .error (.strideViolation b st) := rfl

theorem consume_ok : ∀ (n : Nat) (g : List (List Char)) (b : List Char)
    (st : Nat), g ≠ [] → n ≤ g.length → (∀ t ∈ g, okTok t = true) →
    consumePointsGo b st { b := some (mkGroup g), s := ',' } n =
      .ok ((g.take n).map tokVal) := by
  intro n
  induction n with
  | zero => intro g b st hg hn htok; rfl
  | succ n ih =>
    intro g b st hg hn htok
    obtain ⟨t, ts, rfl⟩ := List.exists_cons_of_ne_nil hg
    have htok0 : okTok t = true := htok t (by simp)
    by_cases hts : ts = []
    · subst hts
      have hn0 : n = 0 := by simpa using hn
      subst hn0
      rw [consumePointsGo_succ]
      rw [mkGroup_single, next_all (okTok_no_comma htok0)]
      simp [okTok_getD htok0]
      rfl
    · rw [consumePointsGo_succ, mkGroup_cons₂ t hts,
        next_split (okTok_no_comma htok0)]
      have hrec := ih ts b st hts (by simpa using hn)
        (fun t2 ht2 => htok t2 (by simp [ht2]))
      simp [okTok_getD htok0, hrec]

theorem consume_short : ∀ (g : List (List Char)) (n : Nat) (b : List Char)
    (st : Nat), g ≠ [] → (∀ t ∈ g, okTok t = true) → g.length < n →
    consumePointsGo b st { b := some (mkGroup g), s := ',' } n =
      .error (.strideViolation b st) := by
  intro g
  induction g with
  | nil => intro n b st hg htok hn; cases hg rfl
  | cons t ts ih =>
    intro n b st hg htok hn
    have htok0 : okTok t = true := htok t (by simp)
    obtain ⟨m, rfl⟩ : ∃ m, n = m + 1 := ⟨n - 1, by omega⟩
    by_cases hts : ts = []
    · subst hts
      rw [consumePointsGo_succ, mkGroup_single,
        next_all (okTok_no_comma htok0)]
      obtain ⟨m2, rfl⟩ : ∃ m2, m = m2 + 1 := ⟨m - 1, by simp at hn; omega⟩
      simp [okTok_getD htok0, consume_exhausted]
    · rw [consumePointsGo_succ, mkGroup_cons₂ t hts,
        next_split (okTok_no_comma htok0)]
      have hrec := ih m b st hts (fun t2 ht2 => htok t2 (by simp [ht2]))
        (by simp at hn; omega)
      simp [okTok_getD htok0, hrec]

theorem mkBody_nil : mkBody [] = [] := rfl

theorem mkBody_cons (g : List (List Char)) (gs : List (List (List Char))) :
    mkBody (g :: gs) = mkGroup g ++ ';' :: mkBody gs := by
  simp [mkBody]

theorem trimGroup {g : List (List Char)} (htok : ∀ t ∈ g, okTok t = true) :
    trimSpace (trimSuffix1 (mkGroup g ++ [';']) ';') = mkGroup g := by
  rw [trimSuffix1_concat, trimSpace_eq_self (mkGroup_no_space htok)]

theorem v1_groups_ok {bufSize k : Nat} (hbuf : 0 < bufSize) :
    ∀ (gs : List (List (List Char))) (fuel : Nat) (backing : List Nat),
    (mkBody gs).length < fuel →
    (∀ g ∈ gs, g ≠ [] ∧ k ≤ g.length ∧ (∀ t ∈ g, okTok t = true) ∧
      (mkGroup g).length < bufSize) →
    ReadAllV1Go bufSize fuel (some k) backing (mkBody gs) =
      .ok (backing ++ (gs.map (fun g => (g.take k).map tokVal)).flatten,
        some k) := by
  intro gs
  induction gs with
  | nil =>
    intro fuel backing hf hg
    obtain ⟨f, rfl⟩ : ∃ f, fuel = f + 1 := ⟨fuel - 1, by omega⟩
    rw [mkBody_nil,
      ReadAllV1Go_step f (readSlice_eof (by simp) (by simpa using hbuf))
        (show trimSpace (trimSuffix1 [] ';') = [] from rfl)
        Option.getD_some]
    simp
  | cons g gs ih =>
    intro fuel backing hf hg
    obtain ⟨f, rfl⟩ : ∃ f, fuel = f + 1 := ⟨fuel - 1, by omega⟩
    obtain ⟨hgne, hkle, htoks, hglen⟩ := hg g (by simp)
    rw [mkBody_cons,
      ReadAllV1Go_step f (readSlice_found (mkGroup_no_semi htoks) hglen)
        (trimGroup htoks) (Option.getD_some)]
    have hcons := consume_ok k g (mkGroup g) k hgne hkle htoks
    unfold consumePoints
    rw [if_neg (by simp), if_neg (mkGroup_ne_nil hgne htoks), hcons]
    have hrest := ih f (backing ++ (g.take k).map tokVal)
      (by rw [mkBody_cons] at hf; simp only [List.length_append,
        List.length_cons] at hf; omega)
      (fun g2 hg2 => hg g2 (by simp [hg2]))
    simp only [Option.isSome_none, Bool.false_eq_true, if_false, hrest]
    simp

theorem v1_groups_err {bufSize k : Nat}
    {bad : List (List Char)} {rest : List Char}
    (hbadne : bad ≠ []) (hbadlen : bad.length < k)
    (hbadtok : ∀ t ∈ bad, okTok t = true)
    (hbadbuf : (mkGroup bad).length < bufSize) :
    ∀ (mid : List (List (List Char))) (fuel : Nat) (backing : List Nat),
    (mkBody mid).length + (mkGroup bad).length + 1 < fuel →
    (∀ g ∈ mid, g ≠ [] ∧ k ≤ g.length ∧ (∀ t ∈ g, okTok t = true) ∧
      (mkGroup g).length < bufSize) →
    ReadAllV1Go bufSize fuel (some k) backing
        (mkBody mid ++ mkGroup bad ++ ';' :: rest) =
      .error (.strideViolation (mkGroup bad) k) := by
  intro mid
  induction mid with
  | nil =>
    intro fuel backing hf hg
    obtain ⟨f, rfl⟩ : ∃ f, fuel = f + 1 := ⟨fuel - 1, by omega⟩
    rw [mkBody_nil, List.nil_append,
      show mkGroup bad ++ ';' :: rest = (mkGroup bad ++ [';']) ++ rest by
        simp,
      show (mkGroup bad ++ [';']) ++ rest = mkGroup bad ++ ';' :: rest by
        simp]
    rw [ReadAllV1Go_step f (readSlice_found (mkGroup_no_semi hbadtok)
      hbadbuf) (trimGroup hbadtok) (Option.getD_some)]
    have hcons := consume_short bad k (mkGroup bad) k hbadne hbadtok hbadlen
    unfold consumePoints
    rw [if_neg (by simp), if_neg (mkGroup_ne_nil hbadne hbadtok), hcons]
  | cons g mid ih =>
    intro fuel backing hf hg
    obtain ⟨f, rfl⟩ : ∃ f, fuel = f + 1 := ⟨fuel - 1, by omega⟩
    obtain ⟨hgne, hkle, htoks, hglen⟩ := hg g (by simp)
    rw [mkBody_cons]
    rw [show (mkGroup g ++ ';' :: mkBody mid) ++ mkGroup bad ++ ';' :: rest =
      mkGroup g ++ ';' :: (mkBody mid ++ mkGroup bad ++ ';' :: rest) by simp]
    rw [ReadAllV1Go_step f (readSlice_found (mkGroup_no_semi htoks) hglen)
      (trimGroup htoks) (Option.getD_some)]
    have hcons := consume_ok k g (mkGroup g) k hgne hkle htoks
    unfold consumePoints
    rw [if_neg (by simp), if_neg (mkGroup_ne_nil hgne htoks), hcons]
    have hrest := ih f (backing ++ (g.take k).map tokVal)
      (by rw [mkBody_cons] at hf; simp only [List.length_append,
        List.length_cons] at hf; omega)
      (fun g2 hg2 => hg g2 (by simp [hg2]))
    simp only [Option.isSome_none, Bool.false_eq_true, if_false, hrest]

theorem chunksGo_flatten {k : Nat} (hk : 0 < k) :
    ∀ (L : List (List Nat)) (fuel : Nat),
    (∀ l ∈ L, l.length = k) → L.flatten.length ≤ fuel →
    chunksGo k fuel L.flatten = L := by
  intro L
  induction L with
  | nil =>
    intro fuel h hf
    cases fuel <;> rfl
  | cons l L ih =>
    intro fuel h hf
    have hl : l.length = k := h l (by simp)
    have hfl : (l :: L).flatten = l ++ L.flatten := by simp
    obtain ⟨f, rfl⟩ : ∃ f, fuel = f + 1 := by
      refine ⟨fuel - 1, ?_⟩
      rw [hfl] at hf
      simp only [List.length_append] at hf
      omega
    cases l with
    | nil => rw [← hl] at hk; simp at hk
    | cons a l' =>
      have hstep : chunksGo k (f + 1) ((a :: l') ++ L.flatten) =
          ((a :: l') ++ L.flatten).take k ::
            chunksGo k f (((a :: l') ++ L.flatten).drop k) := rfl
      rw [hfl, hstep, List.take_left' hl, List.drop_left' hl]
      have := ih f (fun q hq => h q (by simp [hq]))
        (by rw [hfl] at hf; simp only [List.length_append, hl] at hf; omega)
      rw [this]

theorem ReadAllV1Points_of_go {bufSize : Nat} {s : List Char}
    {bk : List Nat} {k : Nat}
    (h : ReadAllV1Go bufSize (s.length + 1) none [] s = .ok (bk, some k)) :
    ReadAllV1Points bufSize s = .ok (chunks k bk) := by
  unfold ReadAllV1Points
  rw [h]

theorem ReadAllV1Points_of_go_err {bufSize : Nat} {s : List Char} {e : Err}
    (h : ReadAllV1Go bufSize (s.length + 1) none [] s = .error e) :
    ReadAllV1Points bufSize s = .error e := by
  unfold ReadAllV1Points
  rw [h]

theorem ReadAllV1Points_groups {bufSize : Nat}
    (g0 : List (List Char)) (gs : List (List (List Char)))
    (hbuf : 0 < bufSize) (hne : g0 ≠ [])
    (hg : ∀ g ∈ g0 :: gs, g ≠ [] ∧ g0.length ≤ g.length ∧
      (∀ t ∈ g, okTok t = true) ∧ (mkGroup g).length < bufSize) :
    ReadAllV1Points bufSize (mkBody (g0 :: gs)) =
      .ok ((g0 :: gs).map (fun g => (g.take g0.length).map tokVal)) := by
  have hk : 0 < g0.length := List.length_pos.mpr hne
  obtain ⟨-, -, htoks0, hlen0⟩ := hg g0 (by simp)
  have hgo : ReadAllV1Go bufSize ((mkBody (g0 :: gs)).length + 1) none []
      (mkBody (g0 :: gs)) =
      .ok (((g0 :: gs).map (fun g => (g.take g0.length).map tokVal)).flatten,
        some g0.length) := by
    obtain ⟨f, hf⟩ : ∃ f, (mkBody (g0 :: gs)).length + 1 = f + 1 :=
      ⟨(mkBody (g0 :: gs)).length, rfl⟩
    rw [hf]
    rw [mkBody_cons]
    rw [ReadAllV1Go_step f (readSlice_found (mkGroup_no_semi htoks0) hlen0)
      (trimGroup htoks0)
      (by rw [Option.getD_none, mkGroup_count hne htoks0])]
    have hcons := consume_ok g0.length g0 (mkGroup g0) g0.length hne le_rfl
      htoks0
    unfold consumePoints
    rw [if_neg (by simp), if_neg (mkGroup_ne_nil hne htoks0), hcons]
    have hrest := v1_groups_ok hbuf gs f ((g0.take g0.length).map tokVal)
      (by rw [mkBody_cons] at hf; simp only [List.length_append,
        List.length_cons] at hf ⊢; omega)
      (fun g2 hg2 => hg g2 (by simp [hg2]))
    simp only [Option.isSome_none, Bool.false_eq_true, if_false,
      List.nil_append, hrest]
    simp only [List.map_cons, List.flatten_cons, List.take_length]
  rw [ReadAllV1Points_of_go hgo]
  have hlens : ∀ l ∈ (g0 :: gs).map (fun g => (g.take g0.length).map tokVal),
      l.length = g0.length := by
    intro l hl
    obtain ⟨g, hgm, rfl⟩ := List.mem_map.mp hl
    have hgl := (hg g hgm).2.1
    simp [List.length_take]
    omega
  unfold chunks
  rw [chunksGo_flatten hk _ _ hlens le_rfl]

/-- Claim C3: in a standard-format body whose groups all contain at least
as many values as the stride fixed by the first group, decoding succeeds —
each group contributes exactly its first `stride` values as one point and
any further tokens in a group are silently discarded. -/
theorem claim_C3 : ∀ (bufSize : Nat) (g0 : List (List Char))
    (gs : List (List (List Char))), 0 < bufSize → g0 ≠ [] →
    (∀ g ∈ g0 :: gs, g ≠ [] ∧ g0.length ≤ g.length ∧
      (∀ t ∈ g, okTok t = true) ∧ (mkGroup g).length < bufSize) →
    ReadAllV1Points bufSize (mkBody (g0 :: gs)) =
      .ok ((g0 :: gs).map (fun g => (g.take g0.length).map tokVal)) :=
  fun _ g0 gs hbuf hne hg => ReadAllV1Points_groups g0 gs hbuf hne hg

/-- Witness for claim C3: body `1,2;3,4,5;` with stride 2 decodes to
`[[1,2],[3,4]]` — the third value of the oversized second group is
discarded without an error. -/
theorem claim_C3_witness :
    ReadAllV1Points 4096 (toL ("1,2;3,4,5;")) = .ok [[1, 2], [3, 4]] := by
  have h := claim_C3 4096 [['1'], ['2']] [[['3'], ['4'], ['5']]]
    (by decide) (by decide) (by decide)
  have e1 : toL ("1,2;3,4,5;") = mkBody [[['1'], ['2']], [['3'], ['4'], ['5']]] := by
    decide
  rw [e1]
  exact h.trans (by decide)

theorem readSlice_full {delim : Char} {bufSize : Nat} {s : List Char}
    {i : Nat} (hfind : s.findIdx? (· == delim) = some i) (hge : bufSize ≤ i) :
    readSlice delim bufSize s =
      (s.take bufSize, s.drop bufSize, some .bufferFull) := by
  unfold readSlice
  simp only [hfind]
  rw [if_neg (by omega)]

theorem ReadHeader_found {bufSize : Nat} {pre body : List Char} {h : Header}
    (hne : '#' ∉ pre) (hlen : pre.length < bufSize) (h2 : 2 ≤ pre.length)
    (htake : pre.take 2 = toL ("V:"))
    (hpf : processFields defaultHeader (pre.splitOn ';') = .ok h) :
    ReadHeader bufSize (pre ++ '#' :: body) = .ok (h, body) := by
  unfold ReadHeader
  rw [if_neg (by simp only [List.length_append]; omega)]
  have ht : (pre ++ '#' :: body).take 2 = toL ("V:") := by
    rw [List.take_append_eq_append_take, htake]
    have h0 : 2 - pre.length = 0 := by omega
    rw [h0]
    simp
  rw [if_neg (by simp [ht]), readSlice_found hne hlen]
  show (match processFields defaultHeader
      ((trimSuffix1 (pre ++ ['#']) '#').splitOn ';') with
    | Except.error e => (Except.error e : Except Err (Header × List Char))
    | Except.ok h2 => Except.ok (h2, body)) = Except.ok (h, body)
  rw [trimSuffix1_concat, hpf]

theorem ReadHeader_v1_lead {bufSize : Nat} (body : List Char)
    (hbuf : 16 ≤ bufSize) :
    ReadHeader bufSize (toL ("V:1;#") ++ body) = .ok (mkVHeader 1, body) := by
  have hsplit : toL ("V:1;#") ++ body = toL ("V:1;") ++ '#' :: body := rfl
  rw [hsplit]
  exact ReadHeader_found (by decide)
    (by rw [show (toL ("V:1;")).length = 4 from rfl]; omega) (by decide)
    (by decide) (by decide)

/-- Claim C2: in a standard-format body whose groups are made of valid
numeric tokens, if some group after the first contains fewer values than
the stride fixed by the first group, `ReadAllV1Points` — and hence `Parse`
on the same body behind a `V:1;#` header — fails with the stride-violation
error naming that group, rather than padding or succeeding. -/
theorem claim_C2 : ∀ (bufSize : Nat) (g0 : List (List Char))
    (mid : List (List (List Char))) (bad : List (List Char))
    (rest : List Char),
    16 ≤ bufSize → g0 ≠ [] → bad ≠ [] → bad.length < g0.length →
    (∀ g ∈ g0 :: mid, g ≠ [] ∧ g0.length ≤ g.length ∧
      (∀ t ∈ g, okTok t = true) ∧ (mkGroup g).length < bufSize) →
    (∀ t ∈ bad, okTok t = true) → (mkGroup bad).length < bufSize →
    ReadAllV1Points bufSize
        (mkBody (g0 :: mid) ++ mkGroup bad ++ ';' :: rest) =
      .error (.strideViolation (mkGroup bad) g0.length) ∧
    Parse bufSize (toL ("V:1;#") ++
        (mkBody (g0 :: mid) ++ mkGroup bad ++ ';' :: rest)) =
      .error (.cannotReadAllV1 (.strideViolation (mkGroup bad) g0.length)) := by
  intro bufSize g0 mid bad rest hbuf hne hbadne hbadlen hg hbadtok hbadbuf
  obtain ⟨-, -, htoks0, hlen0⟩ := hg g0 (by simp)
  have hgo : ∀ fuel,
      (mkBody (g0 :: mid) ++ mkGroup bad ++ ';' :: rest).length < fuel + 1 →
      ReadAllV1Go bufSize (fuel + 1) none []
        (mkBody (g0 :: mid) ++ mkGroup bad ++ ';' :: rest) =
      .error (.strideViolation (mkGroup bad) g0.length) := by
    intro fuel hfuel
    have hs : mkBody (g0 :: mid) ++ mkGroup bad ++ ';' :: rest =
        mkGroup g0 ++ ';' :: (mkBody mid ++ mkGroup bad ++ ';' :: rest) := by
      rw [mkBody_cons]
      simp
    rw [hs]
    rw [ReadAllV1Go_step fuel
      (readSlice_found (mkGroup_no_semi htoks0) hlen0) (trimGroup htoks0)
      (by rw [Option.getD_none, mkGroup_count hne htoks0])]
    have hcons := consume_ok g0.length g0 (mkGroup g0) g0.length hne le_rfl
      htoks0
    unfold consumePoints
    rw [if_neg (by simp), if_neg (mkGroup_ne_nil hne htoks0), hcons]
    have herr := @v1_groups_err bufSize g0.length bad rest
      hbadne hbadlen hbadtok hbadbuf mid fuel
      ((g0.take g0.length).map tokVal)
      (by rw [hs] at hfuel
          simp only [List.length_append, List.length_cons] at hfuel ⊢
          omega)
      (fun g2 hg2 => hg g2 (by simp [hg2]))
    simp only [Option.isSome_none, Bool.false_eq_true, if_false,
      List.nil_append]
    rw [show mkBody mid ++ mkGroup bad ++ ';' :: rest =
      mkBody mid ++ (mkGroup bad ++ ';' :: rest) by simp] at herr ⊢
    exact herr
  have hv1 : ReadAllV1Points bufSize
      (mkBody (g0 :: mid) ++ mkGroup bad ++ ';' :: rest) =
      .error (.strideViolation (mkGroup bad) g0.length) :=
    ReadAllV1Points_of_go_err (hgo _ (by omega))
  refine ⟨hv1, ?_⟩
  have hread := ReadHeader_v1_lead
    (mkBody (g0 :: mid) ++ mkGroup bad ++ ';' :: rest) hbuf
  have hpv : pointsForVersion bufSize (mkVHeader 1).Version
      (mkBody (g0 :: mid) ++ mkGroup bad ++ ';' :: rest) =
      .error (.cannotReadAllV1 (.strideViolation (mkGroup bad) g0.length)) := by
    unfold pointsForVersion
    rw [show (mkVHeader 1).Version = 1 from rfl, if_neg (by norm_num [V0]),
      if_pos (by norm_num [V1]), hv1]
    rfl
  rw [Parse_eq bufSize _ (mkVHeader 1) _ hread, hpv]

/-- Witness for claim C2: body `1,2;3;` — the second group `3` has one
value against a stride of two — fails with the stride-violation error,
both at the point-decoder level and through `Parse`. -/
theorem claim_C2_witness :
    ReadAllV1Points 4096 (toL ("1,2;3;")) =
      .error (.strideViolation (toL ("3")) 2) ∧
    Parse 4096 (toL ("V:1;#1,2;3;")) =
      .error (.cannotReadAllV1 (.strideViolation (toL ("3")) 2)) := by
  have h := claim_C2 4096 [['1'], ['2']] [] [['3']] [] (by decide)
    (by decide) (by decide) (by decide) (by decide) (by decide) (by decide)
  constructor
  · have e1 : toL ("1,2;3;") =
        mkBody ([['1'], ['2']] :: []) ++ mkGroup [['3']] ++ ';' :: [] := by
      decide
    rw [e1]
    exact h.1.trans (by decide)
  · have e2 : toL ("V:1;#1,2;3;") = toL ("V:1;#") ++
        (mkBody ([['1'], ['2']] :: []) ++ mkGroup [['3']] ++ ';' :: []) := by
      decide
    rw [e2]
    exact h.2.trans (by decide)

/-- Counterexample to claim C6: the result of `Parse` depends on the
internal buffer size.  A 28-byte header is decoded with a 4096-byte buffer
but fails with `bufio.ErrBufferFull` when the caller hands `NewReader` a
`bufio.Reader` whose buffer holds only 16 bytes. -/
theorem claim_C6_cex :
    Parse 16 (toL ("V:1;T:aaaaaaaaaaaaaaaaaaaa;#1;")) ≠
      Parse 4096 (toL ("V:1;T:aaaaaaaaaaaaaaaaaaaa;#1;")) := by
  decide

/-- Amended claim C6: the outcome of `Parse` is a deterministic function of
the input bytes and the reader's internal buffer size, but it is not
independent of that buffer size: a header longer than the buffer (here 28
bytes against buffers of at most 27) fails with `bufio.ErrBufferFull`,
while any buffer of at least 28 bytes decodes the same input successfully. -/
theorem claim_C6_amended : ∀ bufSize : Nat, 16 ≤ bufSize →
    (bufSize ≤ 27 →
      Parse bufSize (toL ("V:1;T:aaaaaaaaaaaaaaaaaaaa;#1;")) =
        .error (.cannotReadHeader .bufferFull)) ∧
    (28 ≤ bufSize →
      Parse bufSize (toL ("V:1;T:aaaaaaaaaaaaaaaaaaaa;#1;")) =
        .ok { toHeader := { mkVHeader 1 with Typ := toL ("aaaaaaaaaaaaaaaaaaaa") }, Points := [[1]] }) := by
  intro bufSize hbuf
  constructor
  · intro hsmall
    have hread : ReadHeader bufSize (toL ("V:1;T:aaaaaaaaaaaaaaaaaaaa;#1;")) =
        .error .bufferFull := by
      unfold ReadHeader
      rw [if_neg (by rw [show (toL ("V:1;T:aaaaaaaaaaaaaaaaaaaa;#1;")).length
          = 30 from rfl]; omega),
        if_neg (by decide)]
      rw [@readSlice_full '#' bufSize (toL ("V:1;T:aaaaaaaaaaaaaaaaaaaa;#1;"))
        27 (by decide) (by omega)]
    unfold Parse
    rw [hread]
  · intro hbig
    have hsplit : toL ("V:1;T:aaaaaaaaaaaaaaaaaaaa;#1;") =
        toL ("V:1;T:aaaaaaaaaaaaaaaaaaaa;") ++ '#' :: toL ("1;") := rfl
    have hread : ReadHeader bufSize (toL ("V:1;T:aaaaaaaaaaaaaaaaaaaa;#1;")) =
        .ok ({ mkVHeader 1 with Typ := toL ("aaaaaaaaaaaaaaaaaaaa") },
          toL ("1;")) := by
      rw [hsplit]
      exact ReadHeader_found (by decide)
        (by rw [show (toL ("V:1;T:aaaaaaaaaaaaaaaaaaaa;")).length = 27
            from rfl]; omega)
        (by decide) (by decide) (by decide)
    have hv1 : ReadAllV1Points bufSize (toL ("1;")) = .ok [[1]] := by
      have e1 : toL ("1;") = mkBody [[['1']]] := by decide
      rw [e1]
      have h := @ReadAllV1Points_groups bufSize [['1']] []
        (by omega) (by decide)
        (by intro g hg
            rcases List.mem_cons.mp hg with h1 | h1
            · subst h1
              refine ⟨by decide, by decide, by decide, ?_⟩
              rw [show (mkGroup [['1']]).length = 1 from by decide]
              omega
            · simp at h1)
      exact h.trans (by decide)
    have hpv : pointsForVersion bufSize
        ({ mkVHeader 1 with Typ := toL ("aaaaaaaaaaaaaaaaaaaa") } :
          Header).Version (toL ("1;")) = .ok [[1]] := by
      unfold pointsForVersion
      rw [show ({ mkVHeader 1 with Typ := toL ("aaaaaaaaaaaaaaaaaaaa") } :
          Header).Version = 1 from rfl,
        if_neg (by norm_num [V0]), if_pos (by norm_num [V1]), hv1]
      rfl
    rw [Parse_eq bufSize _ _ _ hread, hpv]
    rfl

/-- Witness for the amended claim C6 at buffer sizes 16 and 4096. -/
theorem claim_C6_amended_witness :
    Parse 16 (toL ("V:1;T:aaaaaaaaaaaaaaaaaaaa;#1;")) =
      .error (.cannotReadHeader .bufferFull) ∧
    Parse 4096 (toL ("V:1;T:aaaaaaaaaaaaaaaaaaaa;#1;")) =
      .ok { toHeader := { mkVHeader 1 with Typ := toL ("aaaaaaaaaaaaaaaaaaaa") }, Points := [[1]] } :=
  ⟨(claim_C6_amended 16 (by decide)).1 (by decide),
    (claim_C6_amended 4096 (by decide)).2 (by decide)⟩

end Lovense
